import Mathlib

/-!
Verification of the quantum-state initializer module
(`qiskit/extensions/quantum_initializer/_initializer.py`).

The Python module builds a tree of elementary gates (`CompositeGate.data`
nested lists with leaf `Gate` objects), so the embedding uses a nested
inductive `GateNode` whose `comp` constructor carries the ordered child
list.  Qubits are modelled as natural-number indices (the module always
addresses qubits through `nth_qubit_from_least_sig_qubit`, i.e. by
position), angles and amplitudes as real and complex numbers.
-/

/-- Global chopping constant `_EPS = 1e-10` from the source module. -/
def _EPS : ℝ := 1e-10

/-- A gate tree: a leaf is an elementary gate with its `name`, `params`
(rotation angles) and `qargs` (qubit indices, control first for `"cx"`);
a `comp` node is a `CompositeGate` with its name and ordered `data` list. -/
inductive GateNode where
  | leaf (name : String) (params : List ℝ) (qargs : List ℕ) : GateNode
  | comp (name : String) (data : List GateNode) : GateNode
deriving Inhabited

/-- The `name` attribute of a gate object. -/
def GateNode.name : GateNode → String
  | .leaf n _ _ => n
  | .comp n _ => n

/-- The `params` attribute of a gate object (composites carry none here). -/
def GateNode.params : GateNode → List ℝ
  | .leaf _ p _ => p
  | .comp _ _ => []

/-- The `qargs` attribute of a gate object (only consulted on leaves). -/
def GateNode.qargs : GateNode → List ℕ
  | .leaf _ _ q => q
  | .comp _ _ => []

mutual
/-- Leaf gates of a node, in order (used to state frame properties). -/
def leavesN : GateNode → List GateNode
  | .leaf n p q => [.leaf n p q]
  | .comp _ d => leavesL d
/-- Leaf gates of a gate list, in order. -/
def leavesL : List GateNode → List GateNode
  | [] => []
  | g :: rest => leavesN g ++ leavesL rest
end

mutual
/-- The source's `number_atomic_gates` on a single node. -/
def leafCountN : GateNode → ℕ
  | .leaf _ _ _ => 1
  | .comp _ d => leafCountL d
/-- The source's `number_atomic_gates` on a `data` list. -/
def leafCountL : List GateNode → ℕ
  | [] => 0
  | g :: rest => leafCountN g + leafCountL rest
end

mutual
/-- The source's monkey-patched `reverse`: recursively reverse child order
of every composite, altering no leaf gate. -/
def reverseNode : GateNode → GateNode
  | .leaf n p q => .leaf n p q
  | .comp n d => .comp n (reverseList d)
/-- Child-order reversal of a `data` list: iterate `reversed(self.data)`,
recursing into composites. -/
def reverseList : List GateNode → List GateNode
  | [] => []
  | g :: rest => reverseList rest ++ [reverseNode g]
end

/-- The source's `InitializeGate.chop_num`. -/
noncomputable def chop_num (numb : ℝ) : ℝ :=
  if |numb| < _EPS then 0 else numb

/-- The source's `remove_zero_rotations` on a `data` list: returns the new
list and whether at least one zero rotation was removed.  A leaf is dropped
iff it is named `rz`/`ry`/`rx` and its angle chops to `0`; a recursed
composite is dropped when its new `data` is empty. -/
noncomputable def remove_zero_rotations : List GateNode → List GateNode × Bool
  | [] => ([], false)
  | .comp nm d :: rest =>
      let r := remove_zero_rotations d
      let t := remove_zero_rotations rest
      (if r.1.isEmpty then t.1 else .comp nm r.1 :: t.1, r.2 || t.2)
  | .leaf nm p q :: rest =>
      let t := remove_zero_rotations rest
      if (nm = "rz" ∨ nm = "ry" ∨ nm = "rx") ∧ chop_num p.headI = 0
      then (t.1, true)
      else (.leaf nm p q :: t.1, t.2)

/-- The source's `first_atomic_gate_host` followed by taking element `0`:
the leaf gate on the left edge of a `data` list, descending the chain of
head composites; `none` when the chain ends in an empty `data`. -/
def firstLeafOpt : List GateNode → Option GateNode
  | [] => none
  | .comp _ d :: _ => firstLeafOpt d
  | .leaf n p q :: _ => some (.leaf n p q)

/-- Effect of `del right_gate_host[0]` on the tree: delete the left-edge
leaf found by `firstLeafOpt` (identity when there is none). -/
def delFirstLeaf : List GateNode → List GateNode
  | [] => []
  | .comp nm d :: rest => .comp nm (delFirstLeaf d) :: rest
  | .leaf _ _ _ :: rest => rest

/-- The source's `last_atomic_gate_host` followed by taking element `-1`:
the leaf gate on the right edge of a `data` list. -/
def lastLeafOpt : List GateNode → Option GateNode
  | [] => none
  | [.comp _ d] => lastLeafOpt d
  | [.leaf n p q] => some (.leaf n p q)
  | _ :: g :: rest => lastLeafOpt (g :: rest)

/-- Effect of `del left_gate_host[-1]` on the tree: delete the right-edge
leaf found by `lastLeafOpt` (identity when there is none). -/
def delLastLeaf : List GateNode → List GateNode
  | [] => []
  | [.comp nm d] => [.comp nm (delLastLeaf d)]
  | [.leaf _ _ _] => []
  | g0 :: g :: rest => g0 :: delLastLeaf (g :: rest)

/-- One iteration body of the `for i in reversed(range(...))` loop of
`remove_double_cnots_once`, after the composite at position `i` has been
recursed into.  `gKeep` is the (already recursed) gate at position `i`,
`gDel` what remains of it after `del left_gate_host[-1]` (empty when the
gate itself is the left leaf and is deleted from the top-level list),
`lf` the resolved left-edge leaf, `tail` the already processed suffix of
the list (positions `> i`) and `flag` the deletions recorded so far.
`none` models the `IndexError` raised by `self.data[i + 1]` when earlier
deletions have shortened the list. -/
def rdcCancel (gKeep : GateNode) (gDel : List GateNode) (lf : Option GateNode)
    (tail : List GateNode) (flag : Bool) : Option (List GateNode × Bool) :=
  match lf with
  | none => some (gKeep :: tail, flag)
  | some l =>
    if l.name = "cx" then
      match tail with
      | [] => none
      | r :: tail2 =>
        match r with
        | .comp nm2 d2 =>
          match firstLeafOpt d2 with
          | some rl =>
            if rl.name = "cx" ∧ l.qargs = rl.qargs then
              some (gDel ++ (.comp nm2 (delFirstLeaf d2) :: tail2), true)
            else some (gKeep :: tail, flag)
          | none => some (gKeep :: tail, flag)
        | .leaf n p q =>
          if (GateNode.leaf n p q).name = "cx" ∧ l.qargs = (GateNode.leaf n p q).qargs then
            some (gDel ++ tail2, true)
          else some (gKeep :: tail, flag)
    else some (gKeep :: tail, flag)

mutual
/-- The source's `remove_double_cnots_once` on a `data` list: returns the
rewritten list and whether a double CNOT was removed; `none` models the
`IndexError` the source can raise (see `rdcCancel`).  A singleton composite
delegates to its own `data`; otherwise the right-to-left loop is modelled by
`rdcLoop`, whose base case is the pre-loop recursion into a trailing
composite. -/
def rdc_once : List GateNode → Option (List GateNode × Bool)
  | [] => some ([], false)
  | [.comp nm d] => (rdc_once d).map fun r => ([GateNode.comp nm r.1], r.2)
  | [.leaf n p q] => some ([.leaf n p q], false)
  | g :: g2 :: rest => rdcLoop (g :: g2 :: rest)
termination_by xs => (sizeOf xs, 1)

/-- The `for i in reversed(range(num_high_level_gates - 1))` loop: the list
is processed from the right; the state `(tail, flag)` is the current shape
of positions `> i`.  Deletions at iteration `j` only touch positions `j`
and `j + 1`, so the gate examined at each iteration is the original list
element, which makes the loop a right fold.  Note the source's
`double_cnot_removed or self.data[i].remove_double_cnots_once()`
short-circuits: once a removal has been recorded, composites at the
remaining (lower) positions are not recursed into during this pass. -/
def rdcLoop : List GateNode → Option (List GateNode × Bool)
  | [] => some ([], false)
  | [.comp nm d] => (rdc_once d).map fun r => ([GateNode.comp nm r.1], r.2)
  | [.leaf n p q] => some ([.leaf n p q], false)
  | g :: g2 :: rest => do
      let acc ← rdcLoop (g2 :: rest)
      match g with
      | .comp nm d =>
          if acc.2 then
            rdcCancel (.comp nm d) [.comp nm (delLastLeaf d)] (lastLeafOpt d)
              acc.1 acc.2
          else do
            let r ← rdc_once d
            rdcCancel (.comp nm r.1) [.comp nm (delLastLeaf r.1)] (lastLeafOpt r.1)
              acc.1 (acc.2 || r.2)
      | .leaf n p q =>
          rdcCancel (.leaf n p q) [] (some (.leaf n p q)) acc.1 acc.2
termination_by xs => (sizeOf xs, 0)
end

/-- The `while self.remove_double_cnots_once(): pass` loop of
`optimize_gates`, with explicit fuel.  Each deleting pass removes at least
two leaf gates, so `leafCountL xs + 1` rounds always reach the fixpoint;
the fuel never runs out on a terminating run (`none` for an exhausted
budget is therefore unreachable from `optimize_gates`). -/
def rdcWhileFuel : ℕ → List GateNode → Option (List GateNode)
  | 0, _ => none
  | fuel + 1, xs =>
    match rdc_once xs with
    | none => none
    | some (ys, false) => some ys
    | some (ys, true) => rdcWhileFuel fuel ys

/-- The source's `optimize_gates`: remove zero rotations, then repeat
double-CNOT passes until one removes nothing. -/
noncomputable def optimize_gates (xs : List GateNode) : Option (List GateNode) :=
  let zs := (remove_zero_rotations xs).1
  rdcWhileFuel (leafCountL zs + 1) zs

/-- The source's `InitializeGate._multiplex`.  Qubits are addressed by
their offset from the least significant qubit (`nth_qubit_from_least_sig_qubit`
is the identity on offsets here).  `none` models the two error paths of the
source: `math.log2(0)` on an empty angle list and the `scipy.kron` /
`numpy.dot` dimension mismatch when the length is not a power of two.  The
`angle_weight` product with `kron([[0.5, 0.5], [0.5, -0.5]], I)` sends the
list to its pairwise half-sums followed by its pairwise half-differences
across the two halves. -/
noncomputable def multiplex (numQubits : ℕ) (bottomGateName : String)
    (bottomQubitIndex : ℕ) (listOfAngles : List ℝ) : Option GateNode :=
  if h0 : listOfAngles.length = 0 then none
  else if h1 : listOfAngles.length = 1 then
    some (.leaf bottomGateName [listOfAngles.headI] [bottomQubitIndex])
  else if 2 ^ Nat.log2 listOfAngles.length ≠ listOfAngles.length then none
  else
    let localNumQubits := Nat.log2 listOfAngles.length + 1
    let controlQubit := localNumQubits - 1 + bottomQubitIndex
    let half := listOfAngles.length / 2
    do
      let subL ← multiplex numQubits bottomGateName bottomQubitIndex
        (List.zipWith (fun x y => (x + y) / 2)
          (listOfAngles.take half) (listOfAngles.drop half))
      let subH ← multiplex numQubits bottomGateName bottomQubitIndex
        (List.zipWith (fun x y => (x - y) / 2)
          (listOfAngles.take half) (listOfAngles.drop half))
      let children := [subL, .leaf "cx" [] [controlQubit, bottomQubitIndex],
        reverseNode subH]
      some (.comp ("multiplex" ++ toString localNumQubits)
        (if numQubits = localNumQubits + bottomQubitIndex
         then children ++ [.leaf "cx" [] [controlQubit, bottomQubitIndex]]
         else children))
termination_by listOfAngles.length
decreasing_by
  all_goals simp [List.length_zipWith, List.length_take, List.length_drop]
  all_goals omega

/-- The source's `InitializeGate._bloch_angles` on the amplitude pair
`(a, b)`: Python sets `theta`, `phi`, `final_r`, `final_t` in the two
branches and returns `(final_r * exp(1j * final_t / 2), theta, phi)`. -/
noncomputable def bloch_angles (a_complex b_complex : ℂ) : ℂ × ℝ × ℝ :=
  let mag_a := Complex.abs a_complex
  let final_r := Real.sqrt (mag_a ^ 2 + Complex.abs b_complex ^ 2)
  if final_r < _EPS then
    (((0 : ℝ) : ℂ) * Complex.exp (Complex.I * ((0 : ℝ) : ℂ) / 2), 0, 0)
  else
    let theta := 2 * Real.arccos (mag_a / final_r)
    let a_arg := Complex.arg a_complex
    let b_arg := Complex.arg b_complex
    let final_t := a_arg + b_arg
    let phi := b_arg - a_arg
    ((final_r : ℂ) * Complex.exp (Complex.I * ((final_t : ℝ) : ℂ) / 2), theta, phi)

/-- Modelled from the spec (for comparison with `bloch_angles`): the Angle
Extractor of section 4.1 — if `r < ε` then `(remaining, theta, phi) =
(0, 0, 0)`; else `theta = 2·arccos(|a| / r)`, `phi = arg b − arg a` and
`remaining = r·e^{i·(arg a + arg b)/2}`. -/
noncomputable def blochAnglesSpec (a b : ℂ) : ℂ × ℝ × ℝ :=
  let r := Real.sqrt (Complex.abs a ^ 2 + Complex.abs b ^ 2)
  if r < _EPS then (0, 0, 0)
  else
    ((r : ℂ) * Complex.exp (Complex.I * (((Complex.arg a + Complex.arg b) / 2 : ℝ) : ℂ)),
     2 * Real.arccos (Complex.abs a / r),
     Complex.arg b - Complex.arg a)

/-- The source's `InitializeGate._rotations_to_disentangle`: apply
`bloch_angles` to the pairs `(2i, 2i+1)`, collecting the remaining
amplitudes and the negated theta and phi lists (`range(param_len // 2)`
ignores a dangling element of an odd-length list). -/
noncomputable def rotations_to_disentangle : List ℂ → List ℂ × List ℝ × List ℝ
  | [] => ([], [], [])
  | [_] => ([], [], [])
  | a :: b :: rest =>
      let t := bloch_angles a b
      let r := rotations_to_disentangle rest
      (t.1 :: r.1, -t.2.1 :: r.2.1, -t.2.2 :: r.2.2)

/-- The loop of the source's `gates_to_uncompute`: at level `i` the
remaining vector is disentangled and a `rz` multiplexor over the phis and
an `ry` multiplexor over the thetas are attached, in that order; after the
last level the head of the remaining vector is the returned global-phase
scalar.  `steps` counts the levels still to process (initially
`num_qubits`). -/
noncomputable def uncompute_steps (numQubits : ℕ) :
    ℕ → ℕ → List ℂ → Option (List GateNode × ℂ)
  | 0, _, remaining_param => some ([], remaining_param.headI)
  | steps + 1, i, remaining_param => do
      let t := rotations_to_disentangle remaining_param
      let gz ← multiplex numQubits "rz" i t.2.2
      let gy ← multiplex numQubits "ry" i t.2.1
      let rest ← uncompute_steps numQubits steps (i + 1) t.1
      some (gz :: gy :: rest.1, rest.2)

/-- Python's `math.isclose(a, b, rel_tol, abs_tol)`:
`abs(a-b) <= max(rel_tol * max(abs(a), abs(b)), abs_tol)`. -/
def mathIsclose (a b rel_tol abs_tol : ℝ) : Prop :=
  |a - b| ≤ max (rel_tol * max |a| |b|) abs_tol

noncomputable instance (a b rel_tol abs_tol : ℝ) :
    Decidable (mathIsclose a b rel_tol abs_tol) :=
  inferInstanceAs (Decidable (_ ≤ _))

/-- The errors `InitializeGate.__init__` can raise before building any
gates: `logDomain` is the `ValueError` of `math.log2(0)` on an empty
amplitude list; the other three are the `QiskitError`s raised, in this
order, for a length that is not a power of two at least 2, a qubit-count
mismatch, and a squared-magnitude sum failing the normalization check. -/
inductive InitError where
  | logDomain : InitError
  | notPowerOfTwo : InitError
  | qubitMismatch : InitError
  | notNormalized : InitError
deriving DecidableEq

/-- The validation prefix of `InitializeGate.__init__`, checks in source
order.  `math.log2(len(params)).is_integer()` holds exactly when the
length is a power of two, and the check `num_qubits == 0` rejects length 1;
`math.isclose(..., abs_tol=_EPS)` keeps Python's default
`rel_tol = 1e-09`. -/
noncomputable def init_validate (params : List ℂ) (qargs : List ℕ) : Option InitError :=
  if params.length = 0 then some .logDomain
  else if Nat.log2 params.length = 0 ∨ 2 ^ Nat.log2 params.length ≠ params.length then
    some .notPowerOfTwo
  else if qargs.length ≠ Nat.log2 params.length then some .qubitMismatch
  else if ¬ mathIsclose ((params.map fun c => Complex.abs c ^ 2).sum) 1 1e-9 1e-10 then
    some .notNormalized
  else none

/-- The source's `InitializeGate.__init__` up to the host-provided final
`inverse()` call (which lives outside this module): validate, then build
the uncompute tree, record the conjugated residual scalar as the global
phase, and optimize the tree.  On a validation error nothing is built. -/
noncomputable def init_gate (params : List ℂ) (qargs : List ℕ) :
    Except InitError (Option (List GateNode × ℂ)) :=
  match init_validate params qargs with
  | some e => .error e
  | none =>
    .ok (do
      let u ← uncompute_steps (Nat.log2 params.length) (Nat.log2 params.length) 0 params
      let tree ← optimize_gates u.1
      some (tree, (starRingEnd ℂ) u.2))

/-- The errors `GlobalPhaseGate.__init__` can raise, in source order:
no qubit supplied, a parameter list that is not a single phase, and a
phase factor that is not of unit magnitude. -/
inductive GPError where
  | needQubit : GPError
  | paramCount : GPError
  | phaseMagnitude : GPError
deriving DecidableEq

/-- The source's `GlobalPhaseGate.__init__`: the three checks in order,
then the attached `U3(pi, phase, pi + phase)` and `X` gates on the first
qubit, where `phase = np.angle(params[0])`. -/
noncomputable def global_phase_gate (params : List ℂ) (qargs : List ℕ) :
    Except GPError (List GateNode) :=
  if qargs.length = 0 then .error .needQubit
  else if params.length ≠ 1 then .error .paramCount
  else if ¬ mathIsclose (Complex.abs params.headI) 1 1e-9 1e-10 then
    .error .phaseMagnitude
  else
    let phase := Complex.arg params.headI
    .ok [.leaf "u3" [Real.pi, phase, Real.pi + phase] [qargs.headI],
         .leaf "x" [] [qargs.headI]]

/-- Modelled from the spec (for comparison with `remove_zero_rotations`):
section 4.4's zero-rotation elimination — delete every `Y`/`Z`/`X` rotation
leaf whose angle magnitude is below ε, and drop a composite that is
childless after recursion. -/
noncomputable def removeZeroRotationsSpec : List GateNode → List GateNode
  | [] => []
  | .comp nm d :: rest =>
      let d2 := removeZeroRotationsSpec d
      if d2.isEmpty then removeZeroRotationsSpec rest
      else .comp nm d2 :: removeZeroRotationsSpec rest
  | .leaf nm p q :: rest =>
      if (nm = "rz" ∨ nm = "ry" ∨ nm = "rx") ∧ |p.headI| < _EPS
      then removeZeroRotationsSpec rest
      else .leaf nm p q :: removeZeroRotationsSpec rest

/-- Keep-test of the zero-rotation pass as a Boolean predicate on leaves:
`true` for the gates `remove_zero_rotations` retains. -/
noncomputable def keepGate (g : GateNode) : Bool :=
  if (g.name = "rz" ∨ g.name = "ry" ∨ g.name = "rx") ∧ chop_num g.params.headI = 0
  then false else true

/-- Gates that are not CNOTs, as a Boolean predicate on leaves. -/
def notCx (g : GateNode) : Bool := g.name ≠ "cx"

mutual
/-- No composite anywhere in the node has an empty child list. -/
def noEmptyCompN : GateNode → Prop
  | .leaf _ _ _ => True
  | .comp _ d => d ≠ [] ∧ noEmptyCompL d
/-- No composite anywhere in the list has an empty child list. -/
def noEmptyCompL : List GateNode → Prop
  | [] => True
  | g :: rest => noEmptyCompN g ∧ noEmptyCompL rest
end

/-- No leaf of the list is a rotation whose angle chops to zero. -/
def noZeroRotL (xs : List GateNode) : Prop :=
  ∀ g ∈ leavesL xs, keepGate g = true

/-- Well-formedness used by the frame property of the CNOT pass: every
leaf named `cx` carries no params (as `CnotGate` objects do). -/
def wfCxL (xs : List GateNode) : Prop :=
  ∀ g ∈ leavesL xs, g.name = "cx" → g.params = []

/-- A list of (left, right) leaf pairs in which both components are CNOTs
acting on the same qubit pair. -/
def cxPairs (P : List (GateNode × GateNode)) : Prop :=
  ∀ pq ∈ P, (Prod.fst pq).name = "cx" ∧ (Prod.snd pq).name = "cx" ∧
    (Prod.fst pq).qargs = (Prod.snd pq).qargs

/-- Invariant relating the input and output of one `remove_double_cnots_once`
pass: a pass reporting no deletion leaves the list unchanged; the sequence
of non-CNOT leaves is preserved; and the leaf multiset loses exactly a list
of (left leaf, right leaf) pairs of CNOTs with identical qargs. -/
def rdcInv (xs ys : List GateNode) (b : Bool) : Prop :=
  (b = false → ys = xs) ∧
  (leavesL ys).filter notCx = (leavesL xs).filter notCx ∧
  ∃ P : List (GateNode × GateNode),
    (leavesL xs : Multiset GateNode) =
      (leavesL ys : Multiset GateNode) + ↑(P.map Prod.fst) + ↑(P.map Prod.snd) ∧
    cxPairs P

/-! ### Supporting lemmas -/

theorem nat_log2_two : Nat.log2 2 = 1 := by norm_num [Nat.log2]

theorem chop_num_one : chop_num (1 : ℝ) = 1 := by
  unfold chop_num
  rw [if_neg]
  norm_num [_EPS]

theorem chop_num_eq_zero_iff (x : ℝ) : chop_num x = 0 ↔ |x| < _EPS := by
  unfold chop_num
  split
  · simp_all
  · rename_i h
    constructor
    · intro h0
      rw [h0] at h
      simp [_EPS] at h
      norm_num at h
    · intro h0
      exact absurd h0 h

theorem isclose_one_of (a rel eps : ℝ) (h1 : 1 ≤ a) (h2 : a - 1 ≤ rel * a) :
    mathIsclose a 1 rel eps := by
  unfold mathIsclose
  rw [abs_of_nonneg (by linarith), abs_of_nonneg (by linarith), abs_one, max_eq_left h1]
  exact le_max_of_le_left h2

theorem not_isclose_one_of (a rel eps : ℝ) (h1 : 1 ≤ a) (h2 : rel * a < a - 1)
    (h3 : eps < a - 1) : ¬ mathIsclose a 1 rel eps := by
  unfold mathIsclose
  rw [abs_of_nonneg (by linarith), abs_of_nonneg (by linarith), abs_one, max_eq_left h1]
  exact not_le.mpr (max_lt h2 h3)

theorem leavesL_nil : leavesL [] = [] := by simp [leavesL]

theorem leavesL_cons (g : GateNode) (rest : List GateNode) :
    leavesL (g :: rest) = leavesN g ++ leavesL rest := by simp [leavesL]

theorem leavesN_leaf (n : String) (p : List ℝ) (q : List ℕ) :
    leavesN (.leaf n p q) = [.leaf n p q] := by simp [leavesN]

theorem leavesN_comp (nm : String) (d : List GateNode) :
    leavesN (.comp nm d) = leavesL d := by simp [leavesN]

theorem leavesL_append (xs ys : List GateNode) :
    leavesL (xs ++ ys) = leavesL xs ++ leavesL ys := by
  induction xs with
  | nil => simp [leavesL]
  | cons g rest ih => simp [leavesL, ih]

theorem leaves_shape (xs : List GateNode) :
    ∀ g ∈ leavesL xs, ∃ n p q, g = .leaf n p q := by
  have key : ∀ N, ∀ xs : List GateNode, sizeOf xs ≤ N →
      ∀ g ∈ leavesL xs, ∃ n p q, g = GateNode.leaf n p q := by
    intro N
    induction N using Nat.strong_induction_on with
    | _ N IH =>
      intro xs hN g hg
      match xs with
      | [] => simp [leavesL] at hg
      | GateNode.leaf n p q :: rest =>
        simp [leavesL, leavesN] at hg
        rcases hg with h | h
        · exact ⟨n, p, q, h⟩
        · exact IH (sizeOf rest) (by simp at hN ⊢; omega) rest le_rfl g h
      | GateNode.comp nm d :: rest =>
        simp [leavesL, leavesN] at hg
        rcases hg with h | h
        · exact IH (sizeOf d) (by simp at hN ⊢; omega) d le_rfl g h
        · exact IH (sizeOf rest) (by simp at hN ⊢; omega) rest le_rfl g h
  exact key (sizeOf xs) xs le_rfl

theorem firstLeaf_leaves (d : List GateNode) :
    ∀ g, firstLeafOpt d = some g → leavesL d = g :: leavesL (delFirstLeaf d) := by
  have key : ∀ N, ∀ d : List GateNode, sizeOf d ≤ N → ∀ g, firstLeafOpt d = some g →
      leavesL d = g :: leavesL (delFirstLeaf d) := by
    intro N
    induction N using Nat.strong_induction_on with
    | _ N IH =>
      intro d hN g hg
      match d with
      | [] => simp [firstLeafOpt] at hg
      | GateNode.leaf n p q :: rest =>
        simp [firstLeafOpt] at hg
        subst hg
        simp [leavesL, leavesN, delFirstLeaf]
      | GateNode.comp nm dd :: rest =>
        simp only [firstLeafOpt] at hg
        have := IH (sizeOf dd) (by simp at hN ⊢; omega) dd le_rfl g hg
        simp [leavesL, leavesN, delFirstLeaf, this]
  exact key (sizeOf d) d le_rfl

theorem lastLeaf_leaves (d : List GateNode) :
    ∀ g, lastLeafOpt d = some g → leavesL d = leavesL (delLastLeaf d) ++ [g] := by
  have key : ∀ N, ∀ d : List GateNode, sizeOf d ≤ N → ∀ g, lastLeafOpt d = some g →
      leavesL d = leavesL (delLastLeaf d) ++ [g] := by
    intro N
    induction N using Nat.strong_induction_on with
    | _ N IH =>
      intro d hN g hg
      match d with
      | [] => simp [lastLeafOpt] at hg
      | [GateNode.leaf n p q] =>
        simp [lastLeafOpt] at hg
        subst hg
        simp [leavesL, leavesN, delLastLeaf]
      | [GateNode.comp nm dd] =>
        simp only [lastLeafOpt] at hg
        have := IH (sizeOf dd) (by simp at hN ⊢; omega) dd le_rfl g hg
        simp [leavesL, leavesN, delLastLeaf, this]
      | g0 :: g1 :: rest =>
        simp only [lastLeafOpt] at hg
        have h2 := IH (sizeOf (g1 :: rest)) (by simp at hN ⊢; omega) (g1 :: rest) le_rfl g hg
        have h3 : delLastLeaf (g0 :: g1 :: rest) = g0 :: delLastLeaf (g1 :: rest) := by
          simp [delLastLeaf]
        rw [leavesL_cons, h2, h3, leavesL_cons, List.append_assoc]
  exact key (sizeOf d) d le_rfl


theorem notCx_false_of_cx (g : GateNode) (h : g.name = "cx") : notCx g = false := by
  simp [notCx, h]

theorem mcoe_append (l1 l2 : List GateNode) :
    ((l1 ++ l2 : List GateNode) : Multiset GateNode) = ↑l1 + ↑l2 := rfl

theorem mcoe_cons (a : GateNode) (l : List GateNode) :
    ((a :: l : List GateNode) : Multiset GateNode) = {a} + ↑l := rfl

theorem filter_snoc_cx (A : List GateNode) (l : GateNode) (h : l.name = "cx") :
    (A ++ [l]).filter notCx = A.filter notCx := by
  rw [List.filter_append]
  simp [notCx_false_of_cx l h]

theorem cxPairs_nil : cxPairs [] := by
  intro pq hpq
  simp at hpq

theorem cxPairs_append (P Q : List (GateNode × GateNode)) (hP : cxPairs P)
    (hQ : cxPairs Q) : cxPairs (P ++ Q) := by
  intro pq hpq
  rcases List.mem_append.mp hpq with h | h
  · exact hP pq h
  · exact hQ pq h

theorem cxPairs_cons (l rl : GateNode) (P : List (GateNode × GateNode))
    (hl : l.name = "cx") (hrl : rl.name = "cx") (hq : l.qargs = rl.qargs)
    (hP : cxPairs P) : cxPairs ((l, rl) :: P) := by
  intro pq hpq
  rcases List.mem_cons.mp hpq with h | h
  · subst h
    exact ⟨hl, hrl, hq⟩
  · exact hP pq h

theorem rdcInv_comp_lift (nm : String) (d d2 : List GateNode) (f : Bool)
    (h : rdcInv d d2 f) : rdcInv [.comp nm d] [.comp nm d2] f := by
  obtain ⟨h1, h2, P, hM, hP⟩ := h
  refine ⟨fun hb => by rw [h1 hb], ?_, P, ?_, hP⟩
  · simp only [leavesL_cons, leavesN_comp, leavesL_nil, List.append_nil]
    exact h2
  · simp only [leavesL_cons, leavesN_comp, leavesL_nil, List.append_nil]
    exact hM

theorem rdcInv_cons_keep (g gK : GateNode) (rest acc : List GateNode)
    (bacc bsub : Bool) (Pg : List (GateNode × GateNode))
    (hgK : bsub = false → gK = g)
    (hgF : (leavesN gK).filter notCx = (leavesN g).filter notCx)
    (hgM : (leavesN g : Multiset GateNode) =
      ↑(leavesN gK) + ↑(Pg.map Prod.fst) + ↑(Pg.map Prod.snd))
    (hPg : cxPairs Pg)
    (Iacc : rdcInv rest acc bacc) :
    rdcInv (g :: rest) (gK :: acc) (bacc || bsub) := by
  obtain ⟨a1, a2, Pa, haM, haP⟩ := Iacc
  refine ⟨?_, ?_, Pg ++ Pa, ?_, cxPairs_append _ _ hPg haP⟩
  · intro hb
    simp only [Bool.or_eq_false_iff] at hb
    rw [hgK hb.2, a1 hb.1]
  · rw [leavesL_cons, leavesL_cons, List.filter_append, List.filter_append, hgF, a2]
  · rw [leavesL_cons, leavesL_cons, List.map_append, List.map_append]
    simp only [mcoe_append]
    rw [hgM, haM]
    abel

theorem rdcInv_cons_del (g : GateNode) (rest acc ys : List GateNode) (l rl : GateNode)
    (LD L2 : List GateNode) (Pg : List (GateNode × GateNode))
    (hln : l.name = "cx") (hrn : rl.name = "cx") (hq : l.qargs = rl.qargs)
    (hgM : (leavesN g : Multiset GateNode) =
      ↑LD + ↑(Pg.map Prod.fst) + ↑(Pg.map Prod.snd) + {l})
    (hgF : LD.filter notCx = (leavesN g).filter notCx)
    (hPg : cxPairs Pg) (Pa : List (GateNode × GateNode))
    (a2 : (leavesL acc).filter notCx = (leavesL rest).filter notCx)
    (haM : (leavesL rest : Multiset GateNode) =
      ↑(leavesL acc) + ↑(Pa.map Prod.fst) + ↑(Pa.map Prod.snd))
    (haP : cxPairs Pa)
    (hacc : leavesL acc = rl :: L2)
    (hys : leavesL ys = LD ++ L2) :
    rdcInv (g :: rest) ys true := by
  refine ⟨by simp, ?_, (l, rl) :: (Pg ++ Pa), ?_, ?_⟩
  · rw [leavesL_cons, List.filter_append, hys, List.filter_append, ← hgF]
    have h2 : (leavesL acc).filter notCx = L2.filter notCx := by
      rw [hacc]
      simp [List.filter_cons, notCx_false_of_cx rl hrn]
    rw [← a2, h2]
  · rw [leavesL_cons, hys]
    simp only [List.map_cons, List.map_append, mcoe_append, mcoe_cons]
    rw [hgM, haM, hacc, mcoe_cons]
    abel
  · exact cxPairs_cons l rl (Pg ++ Pa) hln hrn hq (cxPairs_append _ _ hPg haP)

theorem rdcCancel_cases (gKeep : GateNode) (gDel : List GateNode) (lf : Option GateNode)
    (tail : List GateNode) (flag : Bool) (ys : List GateNode) (b : Bool)
    (h : rdcCancel gKeep gDel lf tail flag = some (ys, b)) :
    (ys = gKeep :: tail ∧ b = flag) ∨
    (b = true ∧ ∃ l rl Lrest, lf = some l ∧ l.name = "cx" ∧ rl.name = "cx" ∧
      l.qargs = rl.qargs ∧ leavesL ys = leavesL gDel ++ Lrest ∧
      leavesL tail = rl :: Lrest) := by
  unfold rdcCancel at h
  match lf with
  | none =>
    simp only [Option.some.injEq, Prod.mk.injEq] at h
    exact Or.inl ⟨h.1.symm, h.2.symm⟩
  | some l =>
    dsimp only at h
    by_cases hn : l.name = "cx"
    · rw [if_pos hn] at h
      match tail with
      | [] => exact absurd h (by simp)
      | r :: tail2 =>
        match r with
        | GateNode.comp nm2 d2 =>
          match hf : firstLeafOpt d2 with
          | some rl =>
            simp only [hf] at h
            by_cases hc : rl.name = "cx" ∧ l.qargs = rl.qargs
            · rw [if_pos hc] at h
              simp only [Option.some.injEq, Prod.mk.injEq] at h
              refine Or.inr ⟨h.2.symm, l, rl,
                leavesL (delFirstLeaf d2) ++ leavesL tail2, rfl, hn, hc.1, hc.2, ?_, ?_⟩
              · rw [← h.1, leavesL_append, leavesL_cons, leavesN_comp]
              · rw [leavesL_cons, leavesN_comp, firstLeaf_leaves d2 rl hf]
                simp
            · rw [if_neg hc] at h
              simp only [Option.some.injEq, Prod.mk.injEq] at h
              exact Or.inl ⟨h.1.symm, h.2.symm⟩
          | none =>
            simp only [hf] at h
            simp only [Option.some.injEq, Prod.mk.injEq] at h
            exact Or.inl ⟨h.1.symm, h.2.symm⟩
        | GateNode.leaf n2 p2 q2 =>
          dsimp only at h
          split at h
          · rename_i hc
            simp only [Option.some.injEq, Prod.mk.injEq] at h
            refine Or.inr ⟨h.2.symm, l, .leaf n2 p2 q2, leavesL tail2, rfl, hn, hc.1, hc.2,
              ?_, ?_⟩
            · rw [← h.1]
              exact leavesL_append _ _
            · rw [leavesL_cons, leavesN_leaf]
              simp
          · simp only [Option.some.injEq, Prod.mk.injEq] at h
            exact Or.inl ⟨h.1.symm, h.2.symm⟩
    · rw [if_neg hn] at h
      simp only [Option.some.injEq, Prod.mk.injEq] at h
      exact Or.inl ⟨h.1.symm, h.2.symm⟩

theorem rdcInv_self_false (xs : List GateNode) : rdcInv xs xs false :=
  ⟨fun _ => rfl, rfl, [], by simp, cxPairs_nil⟩

theorem rdc_inv_all : ∀ N : ℕ, ∀ xs ys : List GateNode, ∀ b : Bool, sizeOf xs ≤ N →
    (rdc_once xs = some (ys, b) → rdcInv xs ys b) ∧
    (rdcLoop xs = some (ys, b) → rdcInv xs ys b) := by
  intro N
  induction N using Nat.strong_induction_on with
  | _ N IH =>
    intro xs ys b hN
    match xs with
    | [] =>
      constructor <;> intro h <;>
        simp only [rdc_once, rdcLoop, Option.some.injEq, Prod.mk.injEq] at h <;>
        exact h.1 ▸ h.2 ▸ rdcInv_self_false []
    | [GateNode.leaf n p q] =>
      constructor <;> intro h <;>
        simp only [rdc_once, rdcLoop, Option.some.injEq, Prod.mk.injEq] at h <;>
        exact h.1 ▸ h.2 ▸ rdcInv_self_false [GateNode.leaf n p q]
    | [GateNode.comp nm d] =>
      have hd : sizeOf d < N := by
        simp at hN
        omega
      have core : (rdc_once d).map (fun r => ([GateNode.comp nm r.1], r.2)) =
          some (ys, b) → rdcInv [GateNode.comp nm d] ys b := by
        intro h
        cases hr : rdc_once d with
        | none => rw [hr] at h; simp at h
        | some r =>
          rw [hr] at h
          simp only [Option.map_some', Option.some.injEq, Prod.mk.injEq] at h
          have Ir := (IH (sizeOf d) hd d r.1 r.2 le_rfl).1 (by rw [hr])
          exact h.1 ▸ h.2 ▸ rdcInv_comp_lift nm d r.1 r.2 Ir
      constructor
      · intro h
        simp only [rdc_once] at h
        exact core h
      · intro h
        simp only [rdcLoop] at h
        exact core h
    | g :: g2 :: rest =>
      have hsub : sizeOf (g2 :: rest) < N := by
        simp at hN ⊢
        omega
      have main : rdcLoop (g :: g2 :: rest) = some (ys, b) →
          rdcInv (g :: g2 :: rest) ys b := by
        intro h
        simp only [rdcLoop] at h
        cases hacc : rdcLoop (g2 :: rest) with
        | none => rw [hacc] at h; simp at h
        | some acc =>
          rw [hacc] at h
          dsimp only [Bind.bind, Option.bind] at h
          have Iacc := (IH _ hsub (g2 :: rest) acc.1 acc.2 le_rfl).2 (by rw [hacc])
          obtain ⟨a1, a2, Pa, haM, haP⟩ := Iacc
          cases g with
          | leaf n p q =>
            dsimp only at h
            rcases rdcCancel_cases _ _ _ _ _ _ _ h with ⟨hy, hb⟩ |
              ⟨hb, l, rl, L2, hl, hln, hrn, hq, hys, htl⟩
            · subst hy hb
              have := rdcInv_cons_keep (GateNode.leaf n p q) (GateNode.leaf n p q)
                (g2 :: rest) acc.1 acc.2 false []
                (fun _ => rfl) rfl (by simp) cxPairs_nil ⟨a1, a2, Pa, haM, haP⟩
              simpa using this
            · subst hb
              simp only [Option.some.injEq] at hl
              subst hl
              exact rdcInv_cons_del (GateNode.leaf n p q) (g2 :: rest) acc.1 ys
                (GateNode.leaf n p q) rl [] L2 [] hln hrn hq
                (by rw [leavesN_leaf]; simp)
                (by rw [leavesN_leaf]; simp [List.filter, notCx_false_of_cx _ hln])
                cxPairs_nil Pa a2 haM haP htl (by simpa using hys)
          | comp nm d =>
            have hdd : sizeOf d < N := by
              simp at hN
              omega
            dsimp only at h
            by_cases hacc2 : acc.2
            · rw [if_pos hacc2] at h
              obtain ⟨r1, r2, Pr, hrM, hrP⟩ := rdcInv_self_false d
              rcases rdcCancel_cases _ _ _ _ _ _ _ h with ⟨hy, hb⟩ |
                ⟨hb, l, rl, L2, hl, hln, hrn, hq, hys, htl⟩
              · subst hy hb
                have := rdcInv_cons_keep (GateNode.comp nm d) (GateNode.comp nm d)
                  (g2 :: rest) acc.1 acc.2 false []
                  (fun _ => rfl) rfl (by simp) cxPairs_nil ⟨a1, a2, Pa, haM, haP⟩
                simpa using this
              · subst hb
                have hll := lastLeaf_leaves d l hl
                refine rdcInv_cons_del (GateNode.comp nm d) (g2 :: rest) acc.1 ys l rl
                  (leavesL (delLastLeaf d)) L2 [] hln hrn hq ?_ ?_ cxPairs_nil
                  Pa a2 haM haP htl ?_
                · rw [leavesN_comp, hll, mcoe_append, mcoe_cons]
                  simp only [Multiset.coe_nil, add_zero, List.map_nil]
                · rw [leavesN_comp, hll, filter_snoc_cx _ l hln]
                · rw [hys]
                  simp only [leavesL_cons, leavesN_comp, leavesL_nil, List.append_nil]
            · rw [if_neg hacc2] at h
              cases hr : rdc_once d with
              | none => rw [hr] at h; simp at h
              | some r =>
                rw [hr] at h
                dsimp only [Bind.bind, Option.bind] at h
                have Ir := (IH (sizeOf d) hdd d r.1 r.2 le_rfl).1 (by rw [hr])
                obtain ⟨r1, r2, Pr, hrM, hrP⟩ := Ir
                rcases rdcCancel_cases _ _ _ _ _ _ _ h with ⟨hy, hb⟩ |
                  ⟨hb, l, rl, L2, hl, hln, hrn, hq, hys, htl⟩
                · subst hy hb
                  exact rdcInv_cons_keep (GateNode.comp nm d) (GateNode.comp nm r.1)
                    (g2 :: rest) acc.1 acc.2 r.2 Pr
                    (fun hf => by rw [r1 hf])
                    (by simp only [leavesN_comp]; exact r2)
                    (by simp only [leavesN_comp]; exact hrM)
                    hrP ⟨a1, a2, Pa, haM, haP⟩
                · subst hb
                  have hll := lastLeaf_leaves r.1 l hl
                  refine rdcInv_cons_del (GateNode.comp nm d) (g2 :: rest) acc.1 ys l rl
                    (leavesL (delLastLeaf r.1)) L2 Pr hln hrn hq ?_ ?_ hrP Pa a2 haM haP htl ?_
                  · rw [leavesN_comp, hrM, hll, mcoe_append, mcoe_cons]
                    simp only [Multiset.coe_nil, add_zero]
                    abel
                  · rw [leavesN_comp, ← r2, hll, filter_snoc_cx _ l hln]
                  · rw [hys]
                    simp only [leavesL_cons, leavesN_comp, leavesL_nil, List.append_nil]
      constructor
      · intro h
        simp only [rdc_once] at h
        exact main h
      · exact main

theorem rdc_once_inv (xs ys : List GateNode) (b : Bool)
    (h : rdc_once xs = some (ys, b)) : rdcInv xs ys b :=
  (rdc_inv_all (sizeOf xs) xs ys b le_rfl).1 h

theorem rdc_once_false_eq (xs ys : List GateNode)
    (h : rdc_once xs = some (ys, false)) : ys = xs :=
  (rdc_once_inv xs ys false h).1 rfl

theorem rdc_once_leaves_le (xs ys : List GateNode) (b : Bool)
    (h : rdc_once xs = some (ys, b)) :
    (leavesL ys : Multiset GateNode) ≤ (leavesL xs : Multiset GateNode) := by
  obtain ⟨_, _, P, hM, _⟩ := rdc_once_inv xs ys b h
  rw [hM]
  calc (leavesL ys : Multiset GateNode)
      ≤ ↑(leavesL ys) + (↑(P.map Prod.fst) + ↑(P.map Prod.snd)) := le_add_right le_rfl
    _ = ↑(leavesL ys) + ↑(P.map Prod.fst) + ↑(P.map Prod.snd) := by abel

theorem rdcWhileFuel_fix (n : ℕ) : ∀ xs ys : List GateNode,
    rdcWhileFuel n xs = some ys → rdc_once ys = some (ys, false) := by
  induction n with
  | zero => intro xs ys h; simp [rdcWhileFuel] at h
  | succ n ih =>
    intro xs ys h
    simp only [rdcWhileFuel] at h
    cases hr : rdc_once xs with
    | none => rw [hr] at h; simp at h
    | some r =>
      rw [hr] at h
      match r with
      | (zs, false) =>
        simp at h
        subst h
        have := rdc_once_false_eq xs zs hr
        subst this
        exact hr
      | (zs, true) => exact ih zs ys h

theorem rdcWhileFuel_leaves_le (n : ℕ) : ∀ xs ys : List GateNode,
    rdcWhileFuel n xs = some ys →
    (leavesL ys : Multiset GateNode) ≤ (leavesL xs : Multiset GateNode) := by
  induction n with
  | zero => intro xs ys h; simp [rdcWhileFuel] at h
  | succ n ih =>
    intro xs ys h
    simp only [rdcWhileFuel] at h
    cases hr : rdc_once xs with
    | none => rw [hr] at h; simp at h
    | some r =>
      rw [hr] at h
      match r with
      | (zs, false) =>
        simp at h
        subst h
        exact rdc_once_leaves_le xs _ false hr
      | (zs, true) =>
        exact le_trans (ih zs ys h) (rdc_once_leaves_le xs zs true hr)

theorem keepGate_leaf (nm : String) (p : List ℝ) (q : List ℕ) :
    keepGate (.leaf nm p q) =
      if (nm = "rz" ∨ nm = "ry" ∨ nm = "rx") ∧ chop_num p.headI = 0
      then false else true := by
  simp only [keepGate, GateNode.name, GateNode.params]

theorem rzr_leaves : ∀ xs : List GateNode,
    leavesL (remove_zero_rotations xs).1 = (leavesL xs).filter keepGate := by
  have key : ∀ N, ∀ xs : List GateNode, sizeOf xs ≤ N →
      leavesL (remove_zero_rotations xs).1 = (leavesL xs).filter keepGate := by
    intro N
    induction N using Nat.strong_induction_on with
    | _ N IH =>
      intro xs hN
      match xs with
      | [] => simp [remove_zero_rotations, leavesL_nil]
      | GateNode.leaf nm p q :: rest =>
        have hr := IH (sizeOf rest) (by simp at hN ⊢; omega) rest le_rfl
        simp only [remove_zero_rotations]
        by_cases hc : (nm = "rz" ∨ nm = "ry" ∨ nm = "rx") ∧ chop_num p.headI = 0
        · rw [if_pos hc]
          try dsimp only
          rw [hr, leavesL_cons, leavesN_leaf, List.filter_append]
          have : List.filter keepGate [GateNode.leaf nm p q] = [] := by
            simp [List.filter, keepGate_leaf, hc]
          rw [this, List.nil_append]
        · rw [if_neg hc]
          try dsimp only
          rw [leavesL_cons, leavesL_cons, leavesN_leaf, hr, List.filter_append]
          have : List.filter keepGate [GateNode.leaf nm p q] = [GateNode.leaf nm p q] := by
            simp [List.filter, keepGate_leaf, hc]
          rw [this]
      | GateNode.comp nm d :: rest =>
        have hr := IH (sizeOf rest) (by simp at hN ⊢; omega) rest le_rfl
        have hd := IH (sizeOf d) (by simp at hN ⊢; omega) d le_rfl
        simp only [remove_zero_rotations]
        by_cases he : (remove_zero_rotations d).1.isEmpty
        · rw [if_pos he]
          try dsimp only
          rw [hr, leavesL_cons, leavesN_comp, List.filter_append, ← hd]
          rw [List.isEmpty_iff] at he
          rw [he, leavesL_nil, List.nil_append]
        · rw [if_neg he]
          try dsimp only
          rw [leavesL_cons, leavesN_comp, hd, hr, leavesL_cons, leavesN_comp,
            List.filter_append]
  intro xs
  exact key (sizeOf xs) xs le_rfl

theorem rzr_noEmpty : ∀ xs : List GateNode,
    noEmptyCompL (remove_zero_rotations xs).1 := by
  have key : ∀ N, ∀ xs : List GateNode, sizeOf xs ≤ N →
      noEmptyCompL (remove_zero_rotations xs).1 := by
    intro N
    induction N using Nat.strong_induction_on with
    | _ N IH =>
      intro xs hN
      match xs with
      | [] => simp [remove_zero_rotations, noEmptyCompL]
      | GateNode.leaf nm p q :: rest =>
        have hr := IH (sizeOf rest) (by simp at hN ⊢; omega) rest le_rfl
        simp only [remove_zero_rotations]
        by_cases hc : (nm = "rz" ∨ nm = "ry" ∨ nm = "rx") ∧ chop_num p.headI = 0
        · rw [if_pos hc]
          exact hr
        · rw [if_neg hc]
          try dsimp only
          simp only [noEmptyCompL, noEmptyCompN]
          exact ⟨trivial, hr⟩
      | GateNode.comp nm d :: rest =>
        have hr := IH (sizeOf rest) (by simp at hN ⊢; omega) rest le_rfl
        have hd := IH (sizeOf d) (by simp at hN ⊢; omega) d le_rfl
        simp only [remove_zero_rotations]
        by_cases he : (remove_zero_rotations d).1.isEmpty
        · rw [if_pos he]
          exact hr
        · rw [if_neg he]
          try dsimp only
          simp only [noEmptyCompL, noEmptyCompN]
          refine ⟨⟨?_, hd⟩, hr⟩
          intro h0
          rw [h0] at he
          simp at he
  intro xs
  exact key (sizeOf xs) xs le_rfl

theorem rzr_id : ∀ xs : List GateNode, noZeroRotL xs → noEmptyCompL xs →
    remove_zero_rotations xs = (xs, false) := by
  have key : ∀ N, ∀ xs : List GateNode, sizeOf xs ≤ N → noZeroRotL xs →
      noEmptyCompL xs → remove_zero_rotations xs = (xs, false) := by
    intro N
    induction N using Nat.strong_induction_on with
    | _ N IH =>
      intro xs hN hz he
      match xs with
      | [] => simp [remove_zero_rotations]
      | GateNode.leaf nm p q :: rest =>
        have hzr : noZeroRotL rest := by
          intro g hg
          exact hz g (by rw [leavesL_cons]; exact List.mem_append_right _ hg)
        have hr := IH (sizeOf rest) (by simp at hN ⊢; omega) rest le_rfl hzr
          (by simp only [noEmptyCompL] at he; exact he.2)
        have hkeep : keepGate (GateNode.leaf nm p q) = true := by
          apply hz
          rw [leavesL_cons, leavesN_leaf]
          exact List.mem_append_left _ (by simp)
        rw [keepGate_leaf] at hkeep
        simp only [remove_zero_rotations]
        split
        · rename_i hc
          rw [if_pos hc] at hkeep
          simp at hkeep
        · rw [hr]
      | GateNode.comp nm d :: rest =>
        have hzr : noZeroRotL rest := by
          intro g hg
          exact hz g (by rw [leavesL_cons]; exact List.mem_append_right _ hg)
        have hzd : noZeroRotL d := by
          intro g hg
          refine hz g ?_
          rw [leavesL_cons, leavesN_comp]
          exact List.mem_append_left _ hg
        simp only [noEmptyCompL, noEmptyCompN] at he
        have hr := IH (sizeOf rest) (by simp at hN ⊢; omega) rest le_rfl hzr he.2
        have hd := IH (sizeOf d) (by simp at hN ⊢; omega) d le_rfl hzd he.1.2
        simp only [remove_zero_rotations]
        rw [hd, hr]
        simp [he.1.1]
  intro xs hz he
  exact key (sizeOf xs) xs le_rfl hz he

theorem rzr_spec_eq : ∀ xs : List GateNode,
    (remove_zero_rotations xs).1 = removeZeroRotationsSpec xs := by
  have key : ∀ N, ∀ xs : List GateNode, sizeOf xs ≤ N →
      (remove_zero_rotations xs).1 = removeZeroRotationsSpec xs := by
    intro N
    induction N using Nat.strong_induction_on with
    | _ N IH =>
      intro xs hN
      match xs with
      | [] => simp [remove_zero_rotations, removeZeroRotationsSpec]
      | GateNode.leaf nm p q :: rest =>
        have hr := IH (sizeOf rest) (by simp at hN ⊢; omega) rest le_rfl
        simp only [remove_zero_rotations, removeZeroRotationsSpec]
        have hiff : ((nm = "rz" ∨ nm = "ry" ∨ nm = "rx") ∧ chop_num p.headI = 0) ↔
            ((nm = "rz" ∨ nm = "ry" ∨ nm = "rx") ∧ |p.headI| < _EPS) :=
          and_congr_right fun _ => chop_num_eq_zero_iff p.headI
        by_cases hc : (nm = "rz" ∨ nm = "ry" ∨ nm = "rx") ∧ chop_num p.headI = 0
        · rw [if_pos hc, if_pos (hiff.mp hc)]
          exact hr
        · rw [if_neg hc, if_neg (fun hcc => hc (hiff.mpr hcc))]
          try dsimp only
          rw [hr]
      | GateNode.comp nm d :: rest =>
        have hr := IH (sizeOf rest) (by simp at hN ⊢; omega) rest le_rfl
        have hd := IH (sizeOf d) (by simp at hN ⊢; omega) d le_rfl
        simp only [remove_zero_rotations, removeZeroRotationsSpec]
        rw [← hd, hr]
  intro xs
  exact key (sizeOf xs) xs le_rfl

theorem zip_half_len (k : ℕ) (angles : List ℝ) (hlen : angles.length = 2 ^ (k + 1))
    (f : ℝ → ℝ → ℝ) :
    (List.zipWith f (angles.take (angles.length / 2))
      (angles.drop (angles.length / 2))).length = 2 ^ k := by
  rw [List.length_zipWith, List.length_take, List.length_drop, hlen]
  have : 2 ^ (k + 1) / 2 = 2 ^ k := by
    rw [pow_succ]
    omega
  rw [this]
  have h2 : 2 ^ k ≤ 2 ^ (k + 1) := Nat.pow_le_pow_right (by norm_num) (by omega)
  omega

theorem multiplex_pow2_some : ∀ k : ℕ, ∀ (numQ b : ℕ) (g : String) (angles : List ℝ),
    angles.length = 2 ^ k → ∃ t, multiplex numQ g b angles = some t := by
  intro k
  induction k with
  | zero =>
    intro numQ b g angles hlen
    simp only [pow_zero] at hlen
    rw [multiplex]
    rw [dif_neg (by omega), dif_pos hlen]
    exact ⟨_, rfl⟩
  | succ k ih =>
    intro numQ b g angles hlen
    rw [multiplex]
    have hne0 : ¬ angles.length = 0 := by rw [hlen]; positivity
    have hne1 : ¬ angles.length = 1 := by
      rw [hlen]
      have : 2 ≤ 2 ^ (k + 1) := by
        calc 2 = 2 ^ 1 := (pow_one 2).symm
        _ ≤ 2 ^ (k + 1) := Nat.pow_le_pow_right (by norm_num) (by omega)
      omega
    rw [dif_neg hne0, dif_neg hne1]
    rw [if_neg (by rw [hlen, Nat.log2_two_pow]; simp)]
    dsimp only
    obtain ⟨tL, hL⟩ := ih numQ b g
      (List.zipWith (fun x y => (x + y) / 2) (angles.take (angles.length / 2))
        (angles.drop (angles.length / 2)))
      (zip_half_len k angles hlen _)
    obtain ⟨tH, hH⟩ := ih numQ b g
      (List.zipWith (fun x y => (x - y) / 2) (angles.take (angles.length / 2))
        (angles.drop (angles.length / 2)))
      (zip_half_len k angles hlen _)
    rw [hL, hH]
    exact ⟨_, rfl⟩

theorem multiplex_struct (numQ b k : ℕ) (g : String) (angles : List ℝ)
    (hk : 1 ≤ k) (hlen : angles.length = 2 ^ k) :
    ∃ subL subH : GateNode,
      multiplex numQ g b (List.zipWith (fun x y => (x + y) / 2)
        (angles.take (2 ^ (k - 1))) (angles.drop (2 ^ (k - 1)))) = some subL ∧
      multiplex numQ g b (List.zipWith (fun x y => (x - y) / 2)
        (angles.take (2 ^ (k - 1))) (angles.drop (2 ^ (k - 1)))) = some subH ∧
      multiplex numQ g b angles = some (.comp ("multiplex" ++ toString (k + 1))
        ([subL, .leaf "cx" [] [k + b, b], reverseNode subH] ++
          (if numQ = (k + 1) + b then [.leaf "cx" [] [k + b, b]] else []))) := by
  obtain ⟨k2, rfl⟩ : ∃ k2, k = k2 + 1 := ⟨k - 1, by omega⟩
  have hhalf : angles.length / 2 = 2 ^ (k2 + 1 - 1) := by
    rw [hlen]
    simp only [Nat.add_sub_cancel]
    rw [pow_succ]
    omega
  have hne0 : ¬ angles.length = 0 := by rw [hlen]; positivity
  have hne1 : ¬ angles.length = 1 := by
    rw [hlen]
    have : 2 ≤ 2 ^ (k2 + 1) := by
      calc 2 = 2 ^ 1 := (pow_one 2).symm
      _ ≤ 2 ^ (k2 + 1) := Nat.pow_le_pow_right (by norm_num) (by omega)
    omega
  obtain ⟨tL, hL⟩ := multiplex_pow2_some k2 numQ b g
    (List.zipWith (fun x y => (x + y) / 2) (angles.take (2 ^ (k2 + 1 - 1)))
      (angles.drop (2 ^ (k2 + 1 - 1))))
    (by rw [← hhalf]; exact zip_half_len k2 angles hlen _)
  obtain ⟨tH, hH⟩ := multiplex_pow2_some k2 numQ b g
    (List.zipWith (fun x y => (x - y) / 2) (angles.take (2 ^ (k2 + 1 - 1)))
      (angles.drop (2 ^ (k2 + 1 - 1))))
    (by rw [← hhalf]; exact zip_half_len k2 angles hlen _)
  refine ⟨tL, tH, hL, hH, ?_⟩
  rw [multiplex]
  rw [dif_neg hne0, dif_neg hne1]
  rw [if_neg (by rw [hlen, Nat.log2_two_pow]; simp)]
  dsimp only
  rw [hhalf] at *
  rw [hlen, Nat.log2_two_pow] at *
  rw [hL, hH]
  dsimp only [Bind.bind, Option.bind]
  congr 2
  split <;> rfl

theorem optimize_gates_fix (xs ys : List GateNode) (h : optimize_gates xs = some ys) :
    rdc_once ys = some (ys, false) ∧ noZeroRotL ys := by
  unfold optimize_gates at h
  refine ⟨rdcWhileFuel_fix _ _ ys h, ?_⟩
  intro g hg
  have hle := rdcWhileFuel_leaves_le _ _ ys h
  have hmem : g ∈ leavesL (remove_zero_rotations xs).1 := by
    rw [← Multiset.mem_coe]
    exact Multiset.mem_of_le hle (by rwa [Multiset.mem_coe])
  rw [rzr_leaves] at hmem
  exact (List.mem_filter.mp hmem).2

theorem rdcWhileFuel_step (n : ℕ) (xs ys : List GateNode)
    (h : rdc_once xs = some (ys, true)) :
    rdcWhileFuel (n + 1) xs = rdcWhileFuel n ys := by
  simp [rdcWhileFuel, h]

theorem rdcWhileFuel_done (n : ℕ) (xs ys : List GateNode)
    (h : rdc_once xs = some (ys, false)) :
    rdcWhileFuel (n + 1) xs = some ys := by
  simp [rdcWhileFuel, h]

theorem rdcWhileFuel_none (n : ℕ) (xs : List GateNode)
    (h : rdc_once xs = none) :
    rdcWhileFuel (n + 1) xs = none := by
  simp [rdcWhileFuel, h]

theorem optimize_gates_unfold (xs : List GateNode) :
    optimize_gates xs =
      rdcWhileFuel (leafCountL (remove_zero_rotations xs).1 + 1)
        (remove_zero_rotations xs).1 := rfl

/-! ### Claim theorems -/

/-- C4: the Angle Extractor `_bloch_angles` is total on complex pairs and
returns exactly what the spec formula says: `(0, 0, 0)` when
`sqrt(|a|^2+|b|^2) < 1e-10`, and otherwise `theta = 2*arccos(|a|/r)`,
`phi = arg b - arg a`, `remaining = r*e^{i(arg a + arg b)/2}`. -/
theorem claim_C4_bloch_angles : ∀ a b : ℂ, bloch_angles a b = blochAnglesSpec a b := by
  intro a b
  unfold bloch_angles blochAnglesSpec
  by_cases h : Real.sqrt (Complex.abs a ^ 2 + Complex.abs b ^ 2) < _EPS
  · simp [h]
  · rw [if_neg h, if_neg h]
    simp [Complex.ofReal_div, mul_div_assoc]

/-- C6: the zero-rotation pass deletes exactly the rotation leaves whose
angle chops to zero (magnitude below `1e-10`), touches no CNOT leaf (the
leaf sequence of the result is the `keepGate` filter of the input's),
leaves no childless composite behind, and agrees with the spec-worded
rewrite `removeZeroRotationsSpec`. -/
theorem claim_C6_zero_rotation_elimination : ∀ xs : List GateNode,
    leavesL (remove_zero_rotations xs).1 = (leavesL xs).filter keepGate ∧
    noEmptyCompL (remove_zero_rotations xs).1 ∧
    (remove_zero_rotations xs).1 = removeZeroRotationsSpec xs :=
  fun xs => ⟨rzr_leaves xs, rzr_noEmpty xs, rzr_spec_eq xs⟩

/-- C5 (amended): after a successful `optimize_gates` run whose result
contains no childless composite, a second run returns the same tree.  (The
unamended claim fails: the CNOT pass can empty a composite, which only the
second run's zero-rotation pass drops — see the counterexample.) -/
theorem claim_C5_optimize_idempotent (xs ys : List GateNode)
    (h : optimize_gates xs = some ys) (hne : noEmptyCompL ys) :
    optimize_gates ys = some ys := by
  obtain ⟨hfix, hz⟩ := optimize_gates_fix xs ys h
  unfold optimize_gates
  rw [rzr_id ys hz hne]
  dsimp only
  rw [rdcWhileFuel, hfix]

/-- C5 counterexample: on this three-gate tree the first `optimize_gates`
run cancels the CNOT pair across the composite boundary and leaves the
emptied composite in place; the second run drops the empty composite, so
running the optimizer twice does not equal running it once. -/
theorem claim_C5_counterexample :
    optimize_gates [GateNode.comp "m" [.leaf "cx" [] [0, 1]], .leaf "cx" [] [0, 1],
      .leaf "rz" [1] [0]] = some [GateNode.comp "m" [], .leaf "rz" [1] [0]] ∧
    optimize_gates [GateNode.comp "m" [], .leaf "rz" [1] [0]] =
      some [GateNode.leaf "rz" [1] [0]] ∧
    [GateNode.comp "m" [], GateNode.leaf "rz" [1] [0]] ≠
      [GateNode.leaf "rz" [1] [0]] := by
  have e1 : remove_zero_rotations [GateNode.comp "m" [.leaf "cx" [] [0, 1]],
      .leaf "cx" [] [0, 1], .leaf "rz" [1] [0]] =
      ([GateNode.comp "m" [.leaf "cx" [] [0, 1]], .leaf "cx" [] [0, 1],
        .leaf "rz" [1] [0]], false) := by
    apply rzr_id
    · intro g hg
      simp [leavesL, leavesN] at hg
      rcases hg with rfl | rfl | rfl <;>
        simp [keepGate, GateNode.name, GateNode.params, chop_num_one]
    · simp [noEmptyCompL, noEmptyCompN]
  have e2 : rdc_once [GateNode.comp "m" [.leaf "cx" [] [0, 1]], .leaf "cx" [] [0, 1],
      .leaf "rz" [1] [0]] = some ([GateNode.comp "m" [], .leaf "rz" [1] [0]], true) := by
    simp [rdc_once, rdcLoop, rdcCancel, lastLeafOpt, delLastLeaf,
      GateNode.name, GateNode.qargs]
  have e3 : rdc_once [GateNode.comp "m" [], .leaf "rz" [1] [0]] =
      some ([GateNode.comp "m" [], .leaf "rz" [1] [0]], false) := by
    simp [rdc_once, rdcLoop, rdcCancel, lastLeafOpt, GateNode.name]
  have e4 : remove_zero_rotations [GateNode.comp "m" [], .leaf "rz" [1] [0]] =
      ([GateNode.leaf "rz" [1] [0]], false) := by
    simp [remove_zero_rotations, chop_num_one, GateNode.name]
  have e5 : rdc_once [GateNode.leaf "rz" [1] [0]] =
      some ([GateNode.leaf "rz" [1] [0]], false) := by
    simp [rdc_once]
  refine ⟨?_, ?_, by simp⟩
  · rw [optimize_gates_unfold, e1]
    rw [show (([GateNode.comp "m" [.leaf "cx" [] [0, 1]], .leaf "cx" [] [0, 1],
      .leaf "rz" [1] [0]], false) :
        List GateNode × Bool).1 = [GateNode.comp "m" [.leaf "cx" [] [0, 1]],
          .leaf "cx" [] [0, 1], .leaf "rz" [1] [0]] from rfl]
    rw [rdcWhileFuel_step _ _ _ e2]
    have hc : leafCountL [GateNode.comp "m" [.leaf "cx" [] [0, 1]], .leaf "cx" [] [0, 1],
        .leaf "rz" [1] [0]] = 2 + 1 := by
      simp [leafCountL, leafCountN]
    rw [hc, rdcWhileFuel_done _ _ _ e3]
  · rw [optimize_gates_unfold, e4]
    rw [show (([GateNode.leaf "rz" [1] [0]], false) : List GateNode × Bool).1 =
      [GateNode.leaf "rz" [1] [0]] from rfl]
    rw [rdcWhileFuel_done _ _ _ e5]

/-- C5 witness: a concrete successful run with no childless composite in
the result, closed instance of the amended idempotence theorem. -/
theorem claim_C5_witness :
    optimize_gates [GateNode.leaf "ry" [1] [0]] = some [GateNode.leaf "ry" [1] [0]] := by
  have e1 : remove_zero_rotations [GateNode.leaf "ry" [1] [0]] =
      ([GateNode.leaf "ry" [1] [0]], false) := by
    simp [remove_zero_rotations, chop_num_one]
  have e2 : rdc_once [GateNode.leaf "ry" [1] [0]] =
      some ([GateNode.leaf "ry" [1] [0]], false) := by
    simp [rdc_once]
  refine claim_C5_optimize_idempotent [GateNode.leaf "ry" [1] [0]]
    [GateNode.leaf "ry" [1] [0]] ?_ ?_
  · rw [optimize_gates_unfold, e1]
    rw [show (([GateNode.leaf "ry" [1] [0]], false) : List GateNode × Bool).1 =
      [GateNode.leaf "ry" [1] [0]] from rfl]
    rw [rdcWhileFuel_done _ _ _ e2]
  · simp [noEmptyCompL, noEmptyCompN]

/-- C8: the double-CNOT fixpoint loop is not raise-free: on a well-formed
top-level list of four identical CNOTs, the third loop iteration of the
single pass indexes `self.data[i + 1]` past the end of the shortened list
(an `IndexError`, modelled as `none`), so `optimize_gates` crashes rather
than reaching a fixpoint. -/
theorem claim_C8_crash :
    rdc_once [GateNode.leaf "cx" [] [0, 1], .leaf "cx" [] [0, 1],
      .leaf "cx" [] [0, 1], .leaf "cx" [] [0, 1]] = none ∧
    optimize_gates [GateNode.leaf "cx" [] [0, 1], .leaf "cx" [] [0, 1],
      .leaf "cx" [] [0, 1], .leaf "cx" [] [0, 1]] = none := by
  have e0 : rdc_once [GateNode.leaf "cx" [] [0, 1], .leaf "cx" [] [0, 1],
      .leaf "cx" [] [0, 1], .leaf "cx" [] [0, 1]] = none := by
    simp [rdc_once, rdcLoop, rdcCancel, GateNode.name, GateNode.qargs]
  have e1 : remove_zero_rotations [GateNode.leaf "cx" [] [0, 1], .leaf "cx" [] [0, 1],
      .leaf "cx" [] [0, 1], .leaf "cx" [] [0, 1]] =
      ([GateNode.leaf "cx" [] [0, 1], .leaf "cx" [] [0, 1],
        .leaf "cx" [] [0, 1], .leaf "cx" [] [0, 1]], false) := by
    apply rzr_id
    · intro g hg
      simp [leavesL, leavesN] at hg
      subst hg
      simp [keepGate, GateNode.name]
    · simp [noEmptyCompL, noEmptyCompN]
  refine ⟨e0, ?_⟩
  rw [optimize_gates_unfold, e1]
  rw [show (([GateNode.leaf "cx" [] [0, 1], .leaf "cx" [] [0, 1],
    .leaf "cx" [] [0, 1], .leaf "cx" [] [0, 1]], false) : List GateNode × Bool).1 =
      [GateNode.leaf "cx" [] [0, 1], .leaf "cx" [] [0, 1],
        .leaf "cx" [] [0, 1], .leaf "cx" [] [0, 1]] from rfl]
  rw [rdcWhileFuel_none _ _ e0]

theorem multiplex_pair (n b : ℕ) (g : String) (x y : ℝ) :
    multiplex n g b [x, y] = some (.comp "multiplex2"
      (if n = 2 + b
       then [.leaf g [(x + y) / 2] [b], .leaf "cx" [] [1 + b, b],
             .leaf g [(x - y) / 2] [b], .leaf "cx" [] [1 + b, b]]
       else [.leaf g [(x + y) / 2] [b], .leaf "cx" [] [1 + b, b],
             .leaf g [(x - y) / 2] [b]])) := by
  have hsingle : ∀ (a : ℝ), multiplex n g b [a] = some (.leaf g [a] [b]) := by
    intro a
    rw [multiplex]
    simp
  rw [multiplex]
  simp only [List.length_cons, List.length_nil, nat_log2_two]
  norm_num [hsingle, reverseNode, nat_log2_two]
  rfl

/-- C3 (amended): the base case returns a single rotation leaf on the
target, and the recursive case on a length-`2^k` list (`k ≥ 1`) returns the
composite `[L, CNOT(k + bottom, bottom), reverse H, optional trailing
CNOT]`, where `L` and `H` are the recursions on the pairwise half-sums and
half-differences across the two halves of the list.  (The unamended claim
places the control at offset `k − 1 + bottom`; the code uses
`local_num_qubits − 1 + bottom = k + bottom`.) -/
theorem claim_C3_structure :
    (∀ (numQ b : ℕ) (g : String) (a : ℝ),
      multiplex numQ g b [a] = some (.leaf g [a] [b])) ∧
    (∀ (numQ b k : ℕ) (g : String) (angles : List ℝ), 1 ≤ k →
      angles.length = 2 ^ k →
      ∃ subL subH : GateNode,
        multiplex numQ g b (List.zipWith (fun x y => (x + y) / 2)
          (angles.take (2 ^ (k - 1))) (angles.drop (2 ^ (k - 1)))) = some subL ∧
        multiplex numQ g b (List.zipWith (fun x y => (x - y) / 2)
          (angles.take (2 ^ (k - 1))) (angles.drop (2 ^ (k - 1)))) = some subH ∧
        multiplex numQ g b angles = some (.comp ("multiplex" ++ toString (k + 1))
          ([subL, .leaf "cx" [] [k + b, b], reverseNode subH] ++
            (if numQ = (k + 1) + b then [.leaf "cx" [] [k + b, b]] else [])))) := by
  constructor
  · intro numQ b g a
    rw [multiplex]
    simp
  · exact fun numQ b k g angles hk hlen => multiplex_struct numQ b k g angles hk hlen

/-- C3 counterexample: on the length-`2^1` list `[1, 3]` with bottom index
0, the CNOT child's control qubit is at offset `1 = k + bottom`, not at the
claim's `k − 1 + bottom = 0`. -/
theorem claim_C3_counterexample :
    multiplex 2 "ry" 0 [1, 3] = some (.comp "multiplex2"
      [.leaf "ry" [2] [0], .leaf "cx" [] [1, 0], .leaf "ry" [(-1 : ℝ)] [0],
        .leaf "cx" [] [1, 0]]) ∧
    (1 : ℕ) ≠ 1 - 1 + 0 := by
  refine ⟨?_, by simp⟩
  rw [multiplex_pair]
  norm_num

/-- C3 witness: the amended structure theorem applied at a concrete base
case and a concrete recursive case. -/
theorem claim_C3_witness :
    multiplex 0 "rz" 5 [7] = some (.leaf "rz" [7] [5]) ∧
    ∃ subL subH : GateNode,
      multiplex 2 "ry" 0 (List.zipWith (fun x y => (x + y) / 2)
        (List.take (2 ^ (1 - 1)) [1, 3]) (List.drop (2 ^ (1 - 1)) [1, 3])) = some subL ∧
      multiplex 2 "ry" 0 (List.zipWith (fun x y => (x - y) / 2)
        (List.take (2 ^ (1 - 1)) [1, 3]) (List.drop (2 ^ (1 - 1)) [1, 3])) = some subH ∧
      multiplex 2 "ry" 0 [1, 3] = some (.comp ("multiplex" ++ toString (1 + 1))
        ([subL, .leaf "cx" [] [1 + 0, 0], reverseNode subH] ++
          (if 2 = (1 + 1) + 0 then [.leaf "cx" [] [1 + 0, 0]] else []))) :=
  ⟨claim_C3_structure.1 0 5 "rz" 7,
   claim_C3_structure.2 2 0 1 "ry" [1, 3] (by norm_num) (by simp)⟩

/-- C9: a successful `remove_double_cnots_once` pass on a well-formed tree
preserves the sequence of non-CNOT leaves exactly (same gates, same
relative order, unmodified), and the deleted leaves form pairs of equal
CNOT gates: the input leaf multiset is the output leaf multiset plus
`d + d` for a multiset `d` of CNOT leaves. -/
theorem claim_C9_cnot_frame (xs ys : List GateNode) (b : Bool) (hwf : wfCxL xs)
    (h : rdc_once xs = some (ys, b)) :
    (leavesL ys).filter notCx = (leavesL xs).filter notCx ∧
    ∃ d : Multiset GateNode,
      (leavesL xs : Multiset GateNode) = ↑(leavesL ys) + (d + d) ∧
      ∀ g ∈ d, GateNode.name g = "cx" := by
  obtain ⟨_, hf, P, hM, hP⟩ := rdc_once_inv xs ys b h
  have hfst_le : (↑(P.map Prod.fst) : Multiset GateNode) ≤ ↑(leavesL xs) :=
    Multiset.le_iff_exists_add.mpr ⟨↑(leavesL ys) + ↑(P.map Prod.snd), by rw [hM]; abel⟩
  have hsnd_le : (↑(P.map Prod.snd) : Multiset GateNode) ≤ ↑(leavesL xs) :=
    Multiset.le_iff_exists_add.mpr ⟨↑(leavesL ys) + ↑(P.map Prod.fst), by rw [hM]; abel⟩
  have hpoint : ∀ pq ∈ P, Prod.snd pq = Prod.fst pq := by
    intro pq hpq
    obtain ⟨h1n, h2n, hqs⟩ := hP pq hpq
    have m1 : Prod.fst pq ∈ leavesL xs := by
      rw [← Multiset.mem_coe]
      exact Multiset.mem_of_le hfst_le
        (by rw [Multiset.mem_coe]; exact List.mem_map_of_mem _ hpq)
    have m2 : Prod.snd pq ∈ leavesL xs := by
      rw [← Multiset.mem_coe]
      exact Multiset.mem_of_le hsnd_le
        (by rw [Multiset.mem_coe]; exact List.mem_map_of_mem _ hpq)
    have hp1 : (Prod.fst pq).params = [] := hwf _ m1 h1n
    have hp2 : (Prod.snd pq).params = [] := hwf _ m2 h2n
    obtain ⟨n1, p1, q1, he1⟩ := leaves_shape xs _ m1
    obtain ⟨n2, p2, q2, he2⟩ := leaves_shape xs _ m2
    rw [he1] at h1n hp1 hqs
    rw [he2] at h2n hp2 hqs
    rw [he1, he2]
    simp only [GateNode.name] at h1n h2n
    simp only [GateNode.params] at hp1 hp2
    simp only [GateNode.qargs] at hqs
    rw [h1n, h2n, hp1, hp2, hqs]
  have hmaps : P.map Prod.snd = P.map Prod.fst := List.map_eq_map_iff.mpr hpoint
  refine ⟨hf, ↑(P.map Prod.fst), ?_, ?_⟩
  · rw [hM, hmaps]
    abel
  · intro g hg
    rw [Multiset.mem_coe] at hg
    obtain ⟨pq, hpq, hgeq⟩ := List.mem_map.mp hg
    rw [← hgeq]
    exact (hP pq hpq).1

/-- C9 witness: the frame property applied to the two-CNOT list, which the
pass empties. -/
theorem claim_C9_witness :
    (leavesL ([] : List GateNode)).filter notCx =
      (leavesL [GateNode.leaf "cx" [] [0, 1], .leaf "cx" [] [0, 1]]).filter notCx ∧
    ∃ d : Multiset GateNode,
      ((leavesL [GateNode.leaf "cx" [] [0, 1], .leaf "cx" [] [0, 1]] : List GateNode) :
        Multiset GateNode) = ↑(leavesL ([] : List GateNode)) + (d + d) ∧
      ∀ g ∈ d, GateNode.name g = "cx" :=
  claim_C9_cnot_frame [GateNode.leaf "cx" [] [0, 1], .leaf "cx" [] [0, 1]] [] true
    (by
      intro g hg hn
      simp [leavesL, leavesN] at hg
      subst hg
      rfl)
    (by simp [rdc_once, rdcLoop, rdcCancel, GateNode.name, GateNode.qargs])

theorem init_gate_of_validate (params : List ℂ) (qargs : List ℕ) (e : InitError)
    (h : init_validate params qargs = some e) :
    init_gate params qargs = .error e := by
  unfold init_gate
  rw [h]

/-- C7 (amended): `InitializeGate` validation fails fast, in order — an
empty vector raises the `math.log2(0)` domain error; a nonempty vector
whose length is not a power of two at least 2 raises the shape error; a
power-of-two length `2^n` (`n ≥ 1`) with a qubit count other than `n`
raises the cardinality error; and a normalization failure is judged by
Python's `math.isclose` with its default `rel_tol = 1e-9` alongside
`abs_tol = 1e-10` (not by the bare `1e-10` of the unamended claim).  In
every failing case the result is the bare error: no tree is built. -/
theorem claim_C7_validation (params : List ℂ) (qargs : List ℕ) :
    (params = [] → init_gate params qargs = .error .logDomain) ∧
    (params ≠ [] → (¬ ∃ n, 1 ≤ n ∧ params.length = 2 ^ n) →
      init_gate params qargs = .error .notPowerOfTwo) ∧
    (∀ n, 1 ≤ n → params.length = 2 ^ n → qargs.length ≠ n →
      init_gate params qargs = .error .qubitMismatch) ∧
    (∀ n, 1 ≤ n → params.length = 2 ^ n → qargs.length = n →
      ¬ mathIsclose ((params.map fun c => Complex.abs c ^ 2).sum) 1 1e-9 1e-10 →
      init_gate params qargs = .error .notNormalized) := by
  refine ⟨?_, ?_, ?_, ?_⟩
  · intro h0
    apply init_gate_of_validate
    unfold init_validate
    rw [if_pos (by simp [h0])]
  · intro h0 hnp
    apply init_gate_of_validate
    unfold init_validate
    rw [if_neg (by simp [h0]), if_pos]
    by_contra hcon
    push_neg at hcon
    refine hnp ⟨Nat.log2 params.length, by omega, hcon.2.symm⟩
  · intro n hn hlen hq
    apply init_gate_of_validate
    unfold init_validate
    have hlog : Nat.log2 params.length = n := by rw [hlen, Nat.log2_two_pow]
    rw [if_neg (by rw [hlen]; positivity),
      if_neg (by rw [hlog, hlen]; push_neg; exact ⟨by omega, rfl⟩),
      if_pos (by rw [hlog]; exact hq)]
  · intro n hn hlen hq hnc
    apply init_gate_of_validate
    unfold init_validate
    have hlog : Nat.log2 params.length = n := by rw [hlen, Nat.log2_two_pow]
    rw [if_neg (by rw [hlen]; positivity),
      if_neg (by rw [hlog, hlen]; push_neg; exact ⟨by omega, rfl⟩),
      if_neg (by rw [hlog]; exact fun hc => hc hq), if_pos hnc]

/-- C7 counterexample: a two-amplitude vector whose squared magnitudes sum
to `1 + 5e-10` — further than `1e-10` from 1 — is accepted without any
error, because `math.isclose(..., abs_tol=_EPS)` keeps its default
relative tolerance `1e-9`. -/
theorem claim_C7_counterexample :
    (∃ t, init_gate [((Real.sqrt (1 + 5e-10) : ℝ) : ℂ), 0] [0] = .ok t) ∧
    (List.map (fun c => Complex.abs c ^ 2)
      [((Real.sqrt (1 + 5e-10) : ℝ) : ℂ), 0]).sum = 1 + 5e-10 ∧
    ¬ |(1 + 5e-10 : ℝ) - 1| ≤ 1e-10 := by
  have h1 : Complex.abs ((Real.sqrt (1 + 5e-10) : ℝ) : ℂ) = Real.sqrt (1 + 5e-10) := by
    rw [Complex.abs_ofReal, abs_of_nonneg (Real.sqrt_nonneg _)]
  have h2 : Real.sqrt (1 + 5e-10) ^ 2 = 1 + 5e-10 := Real.sq_sqrt (by norm_num)
  have hs : (List.map (fun c => Complex.abs c ^ 2)
      [((Real.sqrt (1 + 5e-10) : ℝ) : ℂ), 0]).sum = 1 + 5e-10 := by
    simp [h1, h2]
  refine ⟨?_, hs, ?_⟩
  · have hv : init_validate [((Real.sqrt (1 + 5e-10) : ℝ) : ℂ), 0] [0] = none := by
      rw [init_validate, hs]
      norm_num [nat_log2_two]
      intro hc
      exact absurd (isclose_one_of _ _ _ (by norm_num) (by norm_num)) hc
    unfold init_gate
    rw [hv]
    exact ⟨_, rfl⟩
  · rw [abs_of_nonneg (by norm_num : (0:ℝ) ≤ (1 + 5e-10 : ℝ) - 1)]
    norm_num

/-- C7 witness: the spec's own example `[0.6, 0.9]` (squared sum `1.17`)
declared on one qubit raises the normalization error, via the amended
validation theorem. -/
theorem claim_C7_witness :
    init_gate [((0.6 : ℝ) : ℂ), ((0.9 : ℝ) : ℂ)] [0] = .error InitError.notNormalized := by
  have hs : (List.map (fun c => Complex.abs c ^ 2)
      [((0.6 : ℝ) : ℂ), ((0.9 : ℝ) : ℂ)]).sum = 1.17 := by
    simp [Complex.abs_ofReal, abs_of_nonneg]
    norm_num
  refine (claim_C7_validation [((0.6 : ℝ) : ℂ), ((0.9 : ℝ) : ℂ)] [0]).2.2.2 1
    le_rfl (by simp) (by simp) ?_
  rw [hs]
  exact not_isclose_one_of _ _ _ (by norm_num) (by norm_num) (by norm_num)

/-- C10: constructing the global-phase gate with an empty qubit list fails
with the needs-a-qubit error for every parameter list — the check precedes
the parameter-count and unit-magnitude checks, and no gates are attached —
while those two checks raise their own errors when the qubit list is
nonempty. -/
theorem claim_C10_global_phase_errors (params : List ℂ) (qargs : List ℕ) :
    (global_phase_gate params [] = .error .needQubit) ∧
    (qargs ≠ [] → params.length ≠ 1 →
      global_phase_gate params qargs = .error .paramCount) ∧
    (qargs ≠ [] → params.length = 1 →
      ¬ mathIsclose (Complex.abs params.headI) 1 1e-9 1e-10 →
      global_phase_gate params qargs = .error .phaseMagnitude) := by
  refine ⟨?_, ?_, ?_⟩
  · unfold global_phase_gate
    simp
  · intro hq hp
    unfold global_phase_gate
    rw [if_neg (by simp [hq]), if_pos hp]
  · intro hq hp hnc
    unfold global_phase_gate
    rw [if_neg (by simp [hq]), if_neg (fun hh => hh hp), if_pos hnc]

/-- C10 witness: the empty-qubit error wins even when the parameter list
would also fail both other checks; with a qubit supplied, the
parameter-count and magnitude errors each fire. -/
theorem claim_C10_witness :
    global_phase_gate [2, 3] [] = .error GPError.needQubit ∧
    global_phase_gate [] [0] = .error GPError.paramCount ∧
    global_phase_gate [((2 : ℝ) : ℂ)] [0] = .error GPError.phaseMagnitude := by
  refine ⟨(claim_C10_global_phase_errors [2, 3] []).1,
    (claim_C10_global_phase_errors [] [0]).2.1 (by simp) (by simp), ?_⟩
  refine (claim_C10_global_phase_errors [((2 : ℝ) : ℂ)] [0]).2.2 (by simp) (by simp) ?_
  have habs : Complex.abs (List.headI [((2 : ℝ) : ℂ)]) = 2 := by simp
  rw [habs]
  exact not_isclose_one_of _ _ _ (by norm_num) (by norm_num) (by norm_num)
